import Mathlib

/-
Verification of the ClearSend Quick Clean recipient-processing code
(src/src/commands/commands.js) against its specification.

The recipient data model and the step functions (validate, dedupe, sort) are
embedded from the source.  String primitives (split, lower-case, trim) are
implemented structurally over character lists so that all definitions are
kernel-computable.  The orchestrator loop of the processors library is not part
of the sources here and is modelled from the spec where a claim needs it (see
the doc comments of runPipeline and runPipelineE).
-/

set_option linter.unusedVariables false
set_option maxRecDepth 4096

/-- Office-style recipient object as handled by the Quick Clean fallback path:
a display name and an optional email address. -/
structure Recipient where
  displayName : String
  emailAddress : Option String
deriving DecidableEq, Repr

/-- ASCII lower-casing of one character, the behaviour of JS toLowerCase on the
ASCII range. -/
def toLowerChar (c : Char) : Char :=
  if 65 ≤ c.toNat && c.toNat ≤ 90 then Char.ofNat (c.toNat + 32) else c

/-- Lower-casing of a whole string, JS s.toLowerCase(). -/
def lowerStr (s : String) : String :=
  String.mk (s.data.map toLowerChar)

/-- Normalized comparison key used by the dedupe code, JS
(recipient.emailAddress || "").toLowerCase(). -/
def emailKey (r : Recipient) : String :=
  lowerStr (r.emailAddress.getD "")

/-- Result record of deduplicateAllRecipients, embedding the object with keys
to, cc, bcc returned by the source. -/
structure DedupeResult where
  toList : List Recipient
  ccList : List Recipient
  bccList : List Recipient
deriving DecidableEq, Repr

/-- Seen-set filtering loop of deduplicateWithinArray: a recipient is kept iff
its normalized email key is not in the seen set, and kept keys are added to the
set. -/
def dedupeWithinAux : List Recipient → List String → List Recipient
  | [], _ => []
  | r :: rs, seen =>
    if emailKey r ∈ seen then dedupeWithinAux rs seen
    else r :: dedupeWithinAux rs (emailKey r :: seen)

/-- JS deduplicateWithinArray: removes later occurrences of an already seen
normalized email, keeping the first occurrence in place. -/
def deduplicateWithinArray (rs : List Recipient) : List Recipient :=
  dedupeWithinAux rs []

/-- One forEach loop of deduplicateAllRecipients: pushes a recipient to the
output iff its key is absent from the shared allEmails set, recording the key;
returns the kept recipients and the updated set. -/
def crossFieldPass : List Recipient → List String → List Recipient × List String
  | [], seen => ([], seen)
  | r :: rs, seen =>
    if emailKey r ∈ seen then crossFieldPass rs seen
    else
      let res := crossFieldPass rs (emailKey r :: seen)
      (r :: res.1, res.2)

/-- JS deduplicateAllRecipients: dedupe within each field, then across fields
with To over CC over BCC priority through one shared allEmails set. -/
def deduplicateAllRecipients (toR ccR bccR : List Recipient) : DedupeResult :=
  let uTo := deduplicateWithinArray toR
  let uCc := deduplicateWithinArray ccR
  let uBcc := deduplicateWithinArray bccR
  let pTo := crossFieldPass uTo []
  let pCc := crossFieldPass uCc pTo.2
  let pBcc := crossFieldPass uBcc pCc.2
  ⟨pTo.1, pCc.1, pBcc.1⟩

/-- Splitting of a character list at every occurrence of a separator character,
the behaviour of JS String.split with a one-character separator. -/
def splitOnChar (sep : Char) : List Char → List (List Char)
  | [] => [[]]
  | c :: rest =>
    if c == sep then [] :: splitOnChar sep rest
    else
      match splitOnChar sep rest with
      | [] => [[c]]
      | h :: t => (c :: h) :: t

/-- ASCII alphanumeric test matching the regex character class [a-zA-Z0-9]. -/
def isAlphaNum (c : Char) : Bool :=
  (97 ≤ c.toNat && c.toNat ≤ 122) ||
    (65 ≤ c.toNat && c.toNat ≤ 90) ||
    (48 ≤ c.toNat && c.toNat ≤ 57)

/-- Code points of the special characters the validation regex allows in the
local part besides alphanumerics: dot, bang, hash, dollar, percent, ampersand,
quote, star, plus, hyphen, slash, equals, question mark, caret, underscore,
backquote, braces, pipe, tilde. -/
def localSpecialCodes : List Nat :=
  [33, 35, 36, 37, 38, 39, 42, 43, 45, 46, 47, 61, 63, 94, 95, 96, 123, 124, 125, 126]

/-- Character class for the local part of the validation regex. -/
def isLocalChar (c : Char) : Bool :=
  isAlphaNum c || localSpecialCodes.contains c.toNat

/-- One domain label of the validation regex: a single alphanumeric, or an
alphanumeric followed by up to 61 alphanumeric-or-hyphen characters and a final
alphanumeric (total label length 1 to 63). -/
def labelOk : List Char → Bool
  | [] => false
  | [c] => isAlphaNum c
  | c :: rest =>
    isAlphaNum c && rest.length ≤ 62 &&
      (match rest.getLast? with
       | some d => isAlphaNum d
       | none => false) &&
      rest.dropLast.all (fun x => isAlphaNum x || x == '-')

/-- Whole-string email regex of validateAndFilterRecipients: a non-empty run of
local characters, one at-sign, then one or more dot-separated domain labels. -/
def emailRegexTest (cs : List Char) : Bool :=
  match splitOnChar '@' cs with
  | [l, d] => !l.isEmpty && l.all isLocalChar && (splitOnChar '.' d).all labelOk
  | _ => false

/-- JS email.includes(".."): two consecutive dots anywhere in the string. -/
def hasConsecutiveDots : List Char → Bool
  | c :: d :: rest => (c == '.' && d == '.') || hasConsecutiveDots (d :: rest)
  | _ => false

/-- Validation predicate applied by validateAndFilterRecipients to one email
string, mirroring the source checks in order: non-empty, contains an at-sign,
split on the at-sign yields exactly two parts, both parts non-empty, domain
part contains a dot, no consecutive dots anywhere, and the regex test. -/
def isValidEmail (email : String) : Bool :=
  let cs := email.data
  if email == "" then false
  else if !cs.contains '@' then false
  else
    match splitOnChar '@' cs with
    | [localPart, domainPart] =>
      if localPart.isEmpty || domainPart.isEmpty then false
      else if !domainPart.contains '.' then false
      else if hasConsecutiveDots cs then false
      else emailRegexTest cs
    | _ => false

/-- JS validateAndFilterRecipients: keeps only recipients whose email passes
isValidEmail. -/
def validateAndFilterRecipients (rs : List Recipient) : List Recipient :=
  rs.filter (fun r => isValidEmail (r.emailAddress.getD ""))

/-- Sort key of sortRecipientsAlphabetically, JS
(a.displayName || a.emailAddress || "").toLowerCase(). -/
def sortKey (r : Recipient) : String :=
  lowerStr (if r.displayName == "" then r.emailAddress.getD "" else r.displayName)

/-- JS sortRecipientsAlphabetically: sorts by the case-insensitive
display-name-or-email key; localeCompare is modelled as lexicographic order on
the lower-cased key. -/
def sortRecipientsAlphabetically (rs : List Recipient) : List Recipient :=
  rs.mergeSort (fun a b => decide (sortKey a ≤ sortKey b))

/-- Whitespace test for the trim model: tab through carriage return, or
space. -/
def isWhitespaceChar (c : Char) : Bool :=
  (9 ≤ c.toNat && c.toNat ≤ 13) || c.toNat == 32

/-- Trimming of leading and trailing whitespace, JS s.trim(). -/
def trimStr (s : String) : String :=
  String.mk (((s.data.dropWhile isWhitespaceChar).reverse.dropWhile isWhitespaceChar).reverse)

/-- JS internal-domain filter in quickClean: drops falsy (empty) strings, the
placeholder "mydomain.com", and entries whose trimmed form is empty. -/
def filterInternalDomains (ds : List String) : List String :=
  ds.filter (fun d => !(d == "") && !(d == "mydomain.com") && !(trimStr d == ""))

/-- Spec wording of Dedupe phase (a): keep each entry, removing every later
entry in the same list whose lower-cased email equals that of an earlier kept
entry. -/
def specWithin : List Recipient → List Recipient
  | [] => []
  | r :: rs => r :: specWithin (rs.filter (fun x => !(emailKey x == emailKey r)))
termination_by l => l.length
decreasing_by
  simp only [List.length_cons]
  exact Nat.lt_succ_of_le (List.length_filter_le _ _)

/-- Spec wording of Dedupe: per-field first-occurrence dedupe, then keep a CC
or BCC entry only if its normalized email was not kept by a higher-priority
field. -/
def specDedupe (toR ccR bccR : List Recipient) : DedupeResult :=
  let t := specWithin toR
  let c := (specWithin ccR).filter (fun r => decide (emailKey r ∉ t.map emailKey))
  let b := (specWithin bccR).filter
    (fun r => decide (emailKey r ∉ t.map emailKey) && decide (emailKey r ∉ c.map emailKey))
  ⟨t, c, b⟩

/-- Modelled from the spec: the Orchestrator loop of processRecipients, which
is not among the sources here.  For each step name in the caller-supplied
ordered sequence it looks up the step function, skips unknown names silently,
and otherwise applies the function to the current state, recording the executed
step name. -/
def runPipeline {σ : Type} (lookup : String → Option (σ → σ)) :
    List String → σ → σ × List String
  | [], s => (s, [])
  | n :: rest, s =>
    match lookup n with
    | none => runPipeline lookup rest s
    | some f =>
      let res := runPipeline lookup rest (f s)
      (res.1, n :: res.2)

/-- Modelled from the spec: the Orchestrator loop with step-failure
propagation, which is not among the sources here.  A step that raises is
wrapped together with its step name and aborts the remaining sequence. -/
def runPipelineE {σ : Type} (lookup : String → Option (σ → Except String σ)) :
    List String → σ → Except (String × String) σ
  | [], s => .ok s
  | n :: rest, s =>
    match lookup n with
    | none => runPipelineE lookup rest s
    | some f =>
      match f s with
      | .ok s2 => runPipelineE lookup rest s2
      | .error e => .error (n, e)

/-- Demonstration step table for the failure-propagation model: one step that
increments a counter and one step that always raises. -/
def demoLookup (n : String) : Option (Nat → Except String Nat) :=
  if n == "ok" then some (fun s => .ok (s + 1))
  else if n == "boom" then some (fun _ => .error "fail")
  else none

/- Helper lemmas about the dedupe loops. -/

/-- The within-field loop and the cross-field loop keep exactly the same
entries from the same seen set. -/
theorem dedupeWithinAux_eq_crossFieldPass (rs : List Recipient) (seen : List String) :
    dedupeWithinAux rs seen = (crossFieldPass rs seen).1 := by
  induction rs generalizing seen with
  | nil => rfl
  | cons r rs ih =>
    simp only [dedupeWithinAux, crossFieldPass]
    split
    · exact ih seen
    · simp [ih]

/-- The kept entries of a cross-field pass form a sublist of the input. -/
theorem crossFieldPass_fst_sublist (rs : List Recipient) (seen : List String) :
    List.Sublist (crossFieldPass rs seen).1 rs := by
  induction rs generalizing seen with
  | nil => simp [crossFieldPass]
  | cons r rs ih =>
    simp only [crossFieldPass]
    split
    · exact (ih seen).cons r
    · simpa using (List.cons_sublist_cons (a := r)).mpr (ih (emailKey r :: seen))

/-- Membership in the updated seen set after a cross-field pass: the old seen
set together with all keys of the processed list. -/
theorem crossFieldPass_snd_mem (rs : List Recipient) (seen : List String) (e : String) :
    e ∈ (crossFieldPass rs seen).2 ↔ e ∈ seen ∨ e ∈ rs.map emailKey := by
  induction rs generalizing seen with
  | nil => simp [crossFieldPass]
  | cons r rs ih =>
    simp only [crossFieldPass, List.map_cons, List.mem_cons]
    split
    · rename_i hm
      rw [ih]
      have hk : e = emailKey r → e ∈ seen := fun he => he ▸ hm
      tauto
    · rename_i hm
      simp only [ih, List.mem_cons]
      tauto

/-- On a list with pairwise distinct keys, the cross-field pass keeps exactly
the entries whose key is outside the initial seen set. -/
theorem crossFieldPass_fst_eq_filter (rs : List Recipient) (seen : List String)
    (h : (rs.map emailKey).Nodup) :
    (crossFieldPass rs seen).1 = rs.filter (fun x => decide (emailKey x ∉ seen)) := by
  induction rs generalizing seen with
  | nil => simp [crossFieldPass]
  | cons r rs ih =>
    simp only [List.map_cons, List.nodup_cons] at h
    simp only [crossFieldPass, List.filter_cons]
    split
    · rename_i hm
      have hd : decide (emailKey r ∉ seen) = false := by simp [hm]
      simp only [hd, Bool.false_eq_true, if_false]
      exact ih seen h.2
    · rename_i hm
      have hd : decide (emailKey r ∉ seen) = true := by simp [hm]
      simp only [hd, if_true]
      rw [ih (emailKey r :: seen) h.2]
      congr 1
      apply List.filter_congr
      intro x hx
      have hne : emailKey x ≠ emailKey r :=
        fun hh => h.1 (hh ▸ List.mem_map_of_mem emailKey hx)
      simp [List.mem_cons, hne]

/-- The keys of the kept entries of a cross-field pass are pairwise distinct
and disjoint from the initial seen set. -/
theorem crossFieldPass_fst_keys_nodup (rs : List Recipient) (seen : List String) :
    ((crossFieldPass rs seen).1.map emailKey).Nodup ∧
      ∀ e ∈ (crossFieldPass rs seen).1.map emailKey, e ∉ seen := by
  induction rs generalizing seen with
  | nil => simp [crossFieldPass]
  | cons r rs ih =>
    simp only [crossFieldPass]
    split
    · rename_i hm
      obtain ⟨h1, h2⟩ := ih seen
      exact ⟨h1, h2⟩
    · rename_i hm
      obtain ⟨h1, h2⟩ := ih (emailKey r :: seen)
      refine ⟨?_, ?_⟩
      · simp only [List.map_cons, List.nodup_cons]
        exact ⟨fun hmem => (h2 _ hmem) (List.mem_cons_self _ _), h1⟩
      · simp only [List.map_cons, List.mem_cons]
        rintro e (rfl | he)
        · exact hm
        · exact fun hs => h2 e he (List.mem_cons_of_mem _ hs)

/-- A cross-field pass whose input keys are distinct and disjoint from the seen
set keeps everything. -/
theorem crossFieldPass_fst_all_kept (rs : List Recipient) (seen : List String)
    (hnd : (rs.map emailKey).Nodup) (hdisj : ∀ e ∈ rs.map emailKey, e ∉ seen) :
    (crossFieldPass rs seen).1 = rs := by
  rw [crossFieldPass_fst_eq_filter rs seen hnd]
  apply List.filter_eq_self.mpr
  intro x hx
  simpa using hdisj _ (List.mem_map_of_mem emailKey hx)

/-- Entries of key k kept by a cross-field pass: none when k is already seen,
otherwise exactly the first input entry of key k. -/
theorem crossFieldPass_fst_filter_key (rs : List Recipient) (seen : List String) (k : String) :
    (crossFieldPass rs seen).1.filter (fun r => emailKey r == k) =
      if k ∈ seen then [] else (rs.filter (fun r => emailKey r == k)).take 1 := by
  induction rs generalizing seen with
  | nil => simp [crossFieldPass]
  | cons r rs ih =>
    simp only [crossFieldPass]
    split
    · rename_i hm
      rw [ih]
      by_cases hk : k ∈ seen
      · simp [hk]
      · have hne : ¬ ((emailKey r == k) = true) := by
          simp only [beq_iff_eq]
          rintro rfl
          exact hk hm
        simp [hk, List.filter_cons, hne]
    · rename_i hm
      simp only [List.filter_cons]
      by_cases hrk : (emailKey r == k) = true
      · have hkeq : emailKey r = k := by simpa using hrk
        have hks : k ∉ seen := hkeq ▸ hm
        simp only [hrk, if_true, ih, hkeq, List.mem_cons, true_or, if_true, hks, if_false]
        simp
      · have hkne : k ∈ (emailKey r :: seen) ↔ k ∈ seen := by
          have : emailKey r ≠ k := by simpa using hrk
          simp [List.mem_cons, Ne.symm this]
        simp only [hrk, Bool.false_eq_true, if_false, ih, hkne]

/-- The within-field loop computes the spec wording of phase (a), applied to
the entries whose key is outside the seen set. -/
theorem dedupeWithinAux_eq_specWithin (rs : List Recipient) (seen : List String) :
    dedupeWithinAux rs seen = specWithin (rs.filter (fun x => decide (emailKey x ∉ seen))) := by
  induction rs generalizing seen with
  | nil => simp [dedupeWithinAux, specWithin]
  | cons r rs ih =>
    simp only [dedupeWithinAux, List.filter_cons]
    split
    · rename_i hm
      have hd : decide (emailKey r ∉ seen) = false := by simp [hm]
      simp only [hd, Bool.false_eq_true, if_false]
      exact ih seen
    · rename_i hm
      have hd : decide (emailKey r ∉ seen) = true := by simp [hm]
      simp only [hd, if_true, specWithin, List.filter_filter]
      rw [ih (emailKey r :: seen)]
      have hfe : List.filter (fun x => decide (emailKey x ∉ emailKey r :: seen)) rs =
          List.filter (fun a => !(emailKey a == emailKey r) && decide (emailKey a ∉ seen)) rs := by
        apply List.filter_congr
        intro x hx
        by_cases hxr : emailKey x = emailKey r
        · simp [hxr]
        · simp [List.mem_cons, hxr]
      rw [hfe]

/-- Phase (a) of the spec on the full list equals deduplicateWithinArray. -/
theorem deduplicateWithinArray_eq_specWithin (rs : List Recipient) :
    deduplicateWithinArray rs = specWithin rs := by
  rw [deduplicateWithinArray, dedupeWithinAux_eq_specWithin]
  simp

/-- Keys of the phase (a) output are pairwise distinct. -/
theorem specWithin_keys_nodup (rs : List Recipient) :
    ((specWithin rs).map emailKey).Nodup := by
  rw [← deduplicateWithinArray_eq_specWithin, deduplicateWithinArray,
    dedupeWithinAux_eq_crossFieldPass]
  exact (crossFieldPass_fst_keys_nodup rs []).1

/-- C1: Dedupe first removes, within each list independently, every later
entry whose lower-cased email equals that of an earlier entry (keeping the
first occurrence in its position), then applies cross-field deduplication with
priority To over CC over BCC, so an entry survives in CC or BCC only if its
normalized email was not already kept by a higher-priority field; in
particular, one identical address in all three fields survives only in To. -/
theorem dedupe_two_phase_spec :
    (∀ toR ccR bccR, deduplicateAllRecipients toR ccR bccR = specDedupe toR ccR bccR) ∧
    deduplicateAllRecipients [⟨"", some "a@x.com"⟩] [⟨"", some "a@x.com"⟩]
        [⟨"", some "a@x.com"⟩] =
      ⟨[⟨"", some "a@x.com"⟩], [], []⟩ := by
  constructor
  · intro toR ccR bccR
    have hW : ∀ rs, deduplicateWithinArray rs = specWithin rs :=
      deduplicateWithinArray_eq_specWithin
    have hnd : ∀ rs, ((deduplicateWithinArray rs).map emailKey).Nodup := by
      intro rs
      rw [hW]
      exact specWithin_keys_nodup rs
    simp only [deduplicateAllRecipients, specDedupe]
    set t := specWithin toR with ht
    set c := (specWithin ccR).filter (fun r => decide (emailKey r ∉ t.map emailKey)) with hc
    have h_t : (crossFieldPass (deduplicateWithinArray toR) []).1 = t := by
      rw [crossFieldPass_fst_eq_filter _ _ (hnd toR), hW]
      exact List.filter_eq_self.mpr (by intro x hx; simp)
    have h_s1 : ∀ e, e ∈ (crossFieldPass (deduplicateWithinArray toR) []).2 ↔
        e ∈ t.map emailKey := by
      intro e
      rw [crossFieldPass_snd_mem]
      simp [hW toR]
    have h_c : (crossFieldPass (deduplicateWithinArray ccR)
        (crossFieldPass (deduplicateWithinArray toR) []).2).1 = c := by
      rw [crossFieldPass_fst_eq_filter _ _ (hnd ccR), hW ccR, hc]
      apply List.filter_congr
      intro x hx
      rw [decide_eq_decide]
      exact not_congr (h_s1 (emailKey x))
    have h_s2 : ∀ e, e ∈ (crossFieldPass (deduplicateWithinArray ccR)
        (crossFieldPass (deduplicateWithinArray toR) []).2).2 ↔
        e ∈ t.map emailKey ∨ e ∈ c.map emailKey := by
      intro e
      rw [crossFieldPass_snd_mem, h_s1, hW ccR]
      by_cases het : e ∈ t.map emailKey
      · simp [het]
      · simp only [het, false_or]
        constructor
        · intro he
          obtain ⟨r, hr, hre⟩ := List.mem_map.mp he
          refine List.mem_map.mpr ⟨r, List.mem_filter.mpr ⟨hr, ?_⟩, hre⟩
          simp [hre, het]
        · intro he
          obtain ⟨r, hr, hre⟩ := List.mem_map.mp he
          exact List.mem_map.mpr ⟨r, (List.mem_filter.mp hr).1, hre⟩
    have h_b : (crossFieldPass (deduplicateWithinArray bccR)
        (crossFieldPass (deduplicateWithinArray ccR)
          (crossFieldPass (deduplicateWithinArray toR) []).2).2).1 =
        (specWithin bccR).filter
          (fun r => decide (emailKey r ∉ t.map emailKey) &&
            decide (emailKey r ∉ c.map emailKey)) := by
      rw [crossFieldPass_fst_eq_filter _ _ (hnd bccR), hW bccR]
      apply List.filter_congr
      intro x hx
      rw [← Bool.decide_and, decide_eq_decide, h_s2]
      exact not_or
    rw [h_t, h_c, h_b]
  · decide

/-- Keys of the kept entries of a pass show up in the updated seen set. -/
theorem crossFieldPass_keys_fst_subset_snd (rs : List Recipient) (seen : List String)
    (e : String) (h : e ∈ (crossFieldPass rs seen).1.map emailKey) :
    e ∈ (crossFieldPass rs seen).2 := by
  rw [crossFieldPass_snd_mem]
  right
  exact ((crossFieldPass_fst_sublist rs seen).map emailKey).subset h

/-- The seen set only grows along a pass. -/
theorem crossFieldPass_seen_subset_snd (rs : List Recipient) (seen : List String)
    (e : String) (h : e ∈ seen) : e ∈ (crossFieldPass rs seen).2 :=
  (crossFieldPass_snd_mem rs seen e).mpr (Or.inl h)

/-- A within-field dedupe of a list with pairwise distinct keys keeps
everything. -/
theorem deduplicateWithinArray_of_nodup (rs : List Recipient)
    (h : (rs.map emailKey).Nodup) : deduplicateWithinArray rs = rs := by
  rw [deduplicateWithinArray, dedupeWithinAux_eq_crossFieldPass]
  exact crossFieldPass_fst_all_kept rs [] h (by simp)

/-- A triple of lists with pairwise distinct keys within each list and with CC
and BCC keys disjoint from the higher-priority fields is a fixed point of
deduplicateAllRecipients. -/
theorem dedupe_fixed_point (aT aC aB : List Recipient)
    (h1 : (aT.map emailKey).Nodup) (h2 : (aC.map emailKey).Nodup)
    (h3 : (aB.map emailKey).Nodup)
    (h4 : ∀ e ∈ aC.map emailKey, e ∉ aT.map emailKey)
    (h5 : ∀ e ∈ aB.map emailKey, e ∉ aT.map emailKey ∧ e ∉ aC.map emailKey) :
    deduplicateAllRecipients aT aC aB = ⟨aT, aC, aB⟩ := by
  simp only [deduplicateAllRecipients]
  rw [deduplicateWithinArray_of_nodup aT h1, deduplicateWithinArray_of_nodup aC h2,
    deduplicateWithinArray_of_nodup aB h3]
  have m1 : ∀ e, e ∈ (crossFieldPass aT []).2 ↔ e ∈ aT.map emailKey := by
    intro e
    rw [crossFieldPass_snd_mem]
    simp
  have e2 : (crossFieldPass aC (crossFieldPass aT []).2).1 = aC := by
    apply crossFieldPass_fst_all_kept aC _ h2
    intro e he
    rw [m1]
    exact h4 e he
  have m2 : ∀ e, e ∈ (crossFieldPass aC (crossFieldPass aT []).2).2 ↔
      e ∈ aT.map emailKey ∨ e ∈ aC.map emailKey := by
    intro e
    rw [crossFieldPass_snd_mem, m1]
  have e3 : (crossFieldPass aB (crossFieldPass aC (crossFieldPass aT []).2).2).1 = aB := by
    apply crossFieldPass_fst_all_kept aB _ h3
    intro e he
    rw [m2]
    rintro (h | h)
    · exact (h5 e he).1 h
    · exact (h5 e he).2 h
  rw [crossFieldPass_fst_all_kept aT [] h1 (by simp), e2, e3]

/-- C5: Dedupe is idempotent — re-running deduplicateAllRecipients on its own
output removes nothing further from any of the three lists. -/
theorem dedupe_idempotent (toR ccR bccR : List Recipient) :
    deduplicateAllRecipients
        (deduplicateAllRecipients toR ccR bccR).toList
        (deduplicateAllRecipients toR ccR bccR).ccList
        (deduplicateAllRecipients toR ccR bccR).bccList =
      deduplicateAllRecipients toR ccR bccR := by
  have hT := crossFieldPass_fst_keys_nodup (deduplicateWithinArray toR) []
  have hC := crossFieldPass_fst_keys_nodup (deduplicateWithinArray ccR)
    (crossFieldPass (deduplicateWithinArray toR) []).2
  have hB := crossFieldPass_fst_keys_nodup (deduplicateWithinArray bccR)
    (crossFieldPass (deduplicateWithinArray ccR)
      (crossFieldPass (deduplicateWithinArray toR) []).2).2
  refine dedupe_fixed_point _ _ _ hT.1 hC.1 hB.1 ?_ ?_
  · intro e he hmem
    exact hC.2 e he (crossFieldPass_keys_fst_subset_snd _ _ _ hmem)
  · intro e he
    constructor
    · intro hmem
      exact hB.2 e he
        (crossFieldPass_seen_subset_snd _ _ _ (crossFieldPass_keys_fst_subset_snd _ _ _ hmem))
    · intro hmem
      exact hB.2 e he (crossFieldPass_keys_fst_subset_snd _ _ _ hmem)

/-- The within-field dedupe output is a sublist of its input. -/
theorem deduplicateWithinArray_sublist (rs : List Recipient) :
    List.Sublist (deduplicateWithinArray rs) rs := by
  rw [deduplicateWithinArray, dedupeWithinAux_eq_crossFieldPass]
  exact crossFieldPass_fst_sublist rs []

/-- C9: the non-reordering steps Dedupe and Validate keep entries in their
original relative order within each list (each output list is a sublist of the
corresponding input list), and never move an entry from one list to
another. -/
theorem dedupe_validate_preserve_order (toR ccR bccR rs : List Recipient) :
    List.Sublist (deduplicateAllRecipients toR ccR bccR).toList toR ∧
    List.Sublist (deduplicateAllRecipients toR ccR bccR).ccList ccR ∧
    List.Sublist (deduplicateAllRecipients toR ccR bccR).bccList bccR ∧
    List.Sublist (validateAndFilterRecipients rs) rs := by
  refine ⟨?_, ?_, ?_, List.filter_sublist rs⟩
  · exact (crossFieldPass_fst_sublist _ _).trans (deduplicateWithinArray_sublist toR)
  · exact (crossFieldPass_fst_sublist _ _).trans (deduplicateWithinArray_sublist ccR)
  · exact (crossFieldPass_fst_sublist _ _).trans (deduplicateWithinArray_sublist bccR)

/-- C6: Sort returns a permutation of its input (same length, same multiset of
entries), and sorting a second time changes nothing. -/
theorem sort_perm_idempotent (rs : List Recipient) :
    (sortRecipientsAlphabetically rs).Perm rs ∧
    sortRecipientsAlphabetically (sortRecipientsAlphabetically rs) =
      sortRecipientsAlphabetically rs := by
  constructor
  · exact List.mergeSort_perm rs _
  · apply List.mergeSort_of_sorted
    apply List.sorted_mergeSort
    · intro a b c hab hbc
      simp only [decide_eq_true_eq] at hab hbc ⊢
      exact le_trans hab hbc
    · intro a b
      simpa using le_total (sortKey a) (sortKey b)

/-- C7: Validate classifies a..b at example.com (consecutive dots), a bare at
example.com (empty local part) and a at example (dotless domain) as errors and
drops them, while a at example.com is retained. -/
theorem validate_examples :
    validateAndFilterRecipients
      [⟨"", some "a..b@example.com"⟩, ⟨"", some "@example.com"⟩,
        ⟨"", some "a@example"⟩, ⟨"", some "a@example.com"⟩] =
      [⟨"", some "a@example.com"⟩] := by decide

/-- Domain label of 63 letters, the longest the validation regex accepts. -/
def label63 : String := String.mk (List.replicate 63 'a')

/-- Email with a 65-character local part, a 257-character domain part and a
one-character top-level label, which passes every check the source actually
performs. -/
def overlongEmail : String :=
  String.mk (List.replicate 65 'a') ++ "@" ++ label63 ++ "." ++ label63 ++ "." ++
    label63 ++ "." ++ label63 ++ ".c"

/-- Email whose local part has 65 characters. -/
def longLocalEmail : String := String.mk (List.replicate 65 'a') ++ "@example.com"

/-- Email whose domain part has 259 characters. -/
def longDomainEmail : String :=
  "a@" ++ label63 ++ "." ++ label63 ++ "." ++ label63 ++ "." ++ label63 ++ ".com"

/-- Email whose top-level label is a single character. -/
def shortTldEmail : String := "a@example.c"

/-- C2 counterexample: an email with local part of 65 characters (more than
64), domain part of 257 characters (more than 253), and a one-character
top-level label is retained by validateAndFilterRecipients, not classified as
error and excluded. -/
theorem validate_length_rules_cex :
    (splitOnChar '@' overlongEmail.data).length = 2 ∧
    ((splitOnChar '@' overlongEmail.data).getD 0 []).length = 65 ∧
    ((splitOnChar '@' overlongEmail.data).getD 1 []).length = 257 ∧
    (splitOnChar '.' ((splitOnChar '@' overlongEmail.data).getD 1 [])).getLast? =
      some ['c'] ∧
    validateAndFilterRecipients [⟨"", some overlongEmail⟩] =
      [⟨"", some overlongEmail⟩] := by
  refine ⟨by decide, by decide, by decide, by decide, by decide⟩

/-- C2 amended: validateAndFilterRecipients imposes no local-part or
domain-part length limit and no minimum top-level-label length; entries whose
email only violates those bounds are retained. -/
theorem validate_retains_overlength :
    validateAndFilterRecipients
      [⟨"", some longLocalEmail⟩, ⟨"", some longDomainEmail⟩,
        ⟨"", some shortTldEmail⟩] =
      [⟨"", some longLocalEmail⟩, ⟨"", some longDomainEmail⟩,
        ⟨"", some shortTldEmail⟩] := by decide

/-- C8 counterexample: the internal-domain filter in quickClean keeps duplicate
entries, so a domain-aware step can see the same domain twice. -/
theorem domain_filter_keeps_duplicates_cex :
    filterInternalDomains ["corp.com", "corp.com"] = ["corp.com", "corp.com"] := by
  decide

/-- C8 amended: before the internal-domain list is handed over, blank and
placeholder entries are filtered out — every surviving entry comes from the
input, is non-empty, is not the placeholder mydomain.com and does not trim to
the empty string — but duplicates are not removed. -/
theorem domain_filter_blank_placeholder (ds : List String) (d : String) :
    d ∈ filterInternalDomains ds ↔
      d ∈ ds ∧ ¬(d = "") ∧ ¬(d = "mydomain.com") ∧ ¬(trimStr d = "") := by
  simp [filterInternalDomains, List.mem_filter, and_assoc]

/-- C3: the pipeline executes exactly the recognized steps of the
caller-supplied ordered sequence, in the caller order, each step consuming
the output state of the previous step; unknown step names are skipped silently and
do not change the state. -/
theorem pipeline_executes_recognized_steps {σ : Type} (lookup : String → Option (σ → σ))
    (steps : List String) (s : σ) :
    runPipeline lookup steps s =
      ((steps.filterMap lookup).foldl (fun st f => f st) s,
        steps.filter (fun n => (lookup n).isSome)) := by
  induction steps generalizing s with
  | nil => rfl
  | cons n rest ih =>
    cases h : lookup n with
    | none =>
      simp only [runPipeline, h, List.filterMap_cons, List.filter_cons, Option.isSome_none,
        Bool.false_eq_true, if_false]
      exact ih s
    | some f =>
      simp only [runPipeline, h, List.filterMap_cons, List.filter_cons, Option.isSome_some,
        if_true, List.foldl_cons]
      rw [ih (f s)]

/-- Running the failure-propagating pipeline over an appended step sequence
runs the first part and, only if it succeeded, continues with the second. -/
theorem runPipelineE_append {σ : Type} (lookup : String → Option (σ → Except String σ))
    (l1 l2 : List String) (s : σ) :
    runPipelineE lookup (l1 ++ l2) s =
      match runPipelineE lookup l1 s with
      | .ok s1 => runPipelineE lookup l2 s1
      | .error err => .error err := by
  induction l1 generalizing s with
  | nil => rfl
  | cons n rest ih =>
    simp only [List.cons_append, runPipelineE]
    cases hl : lookup n with
    | none =>
      simp only [hl]
      exact ih s
    | some f =>
      simp only [hl]
      cases hf : f s with
      | ok s2 =>
        simp only [hf]
        exact ih s2
      | error e =>
        simp only [hf]

/-- C4: if a step raises an internal fault during a run, the run aborts
immediately — the remaining steps do not execute — and the error surfaced to
the caller carries the name of the failing step; the result is an error, never a
partial success. -/
theorem step_failure_aborts {σ : Type} (lookup : String → Option (σ → Except String σ))
    (pre post : List String) (n : String) (f : σ → Except String σ)
    (s s1 : σ) (e : String)
    (h1 : runPipelineE lookup pre s = .ok s1)
    (h2 : lookup n = some f) (h3 : f s1 = .error e) :
    runPipelineE lookup (pre ++ n :: post) s = .error (n, e) := by
  rw [runPipelineE_append, h1]
  show runPipelineE lookup (n :: post) s1 = .error (n, e)
  simp only [runPipelineE, h2, h3]

/-- Witness for C4: with the demonstration step table, a failing middle step
aborts the run with its own name, whatever follows it. -/
theorem step_failure_aborts_witness :
    runPipelineE demoLookup (["ok"] ++ "boom" :: ["ok"]) 0 = .error ("boom", "fail") := by
  exact step_failure_aborts demoLookup ["ok"] ["ok"] "boom" (fun _ => .error "fail")
    0 1 "fail" rfl rfl rfl

/-- The within-field dedupe keeps exactly the first entry of each key. -/
theorem deduplicateWithinArray_filter_key (rs : List Recipient) (k : String) :
    (deduplicateWithinArray rs).filter (fun r => emailKey r == k) =
      (rs.filter (fun r => emailKey r == k)).take 1 := by
  rw [deduplicateWithinArray, dedupeWithinAux_eq_crossFieldPass,
    crossFieldPass_fst_filter_key]
  simp

/-- A key occurs among the keys of a list iff filtering the list by that key is
non-empty. -/
theorem key_mem_iff_filter_ne_nil (rs : List Recipient) (k : String) :
    k ∈ rs.map emailKey ↔ ¬ rs.filter (fun r => emailKey r == k) = [] := by
  rw [List.filter_eq_nil_iff]
  constructor
  · intro h hall
    obtain ⟨r, hr, hre⟩ := List.mem_map.mp h
    exact hall r hr (by simp [hre])
  · intro h
    by_contra hk
    apply h
    intro a ha hbeq
    exact hk (List.mem_map.mpr ⟨a, ha, by simpa using hbeq⟩)

/-- The within-field dedupe preserves which keys occur. -/
theorem key_mem_deduplicateWithinArray_iff (rs : List Recipient) (k : String) :
    k ∈ (deduplicateWithinArray rs).map emailKey ↔ k ∈ rs.map emailKey := by
  rw [key_mem_iff_filter_ne_nil, key_mem_iff_filter_ne_nil,
    deduplicateWithinArray_filter_key]
  simp [List.take_eq_nil_iff]

/-- Across the whole dedupe, for every key the three output lists together
retain exactly the first entry of that key in To-CC-BCC priority order. -/
theorem dedupe_filter_key (toR ccR bccR : List Recipient) (k : String) :
    ((deduplicateAllRecipients toR ccR bccR).toList ++
      (deduplicateAllRecipients toR ccR bccR).ccList ++
      (deduplicateAllRecipients toR ccR bccR).bccList).filter
        (fun r => emailKey r == k) =
      ((toR ++ ccR ++ bccR).filter (fun r => emailKey r == k)).take 1 := by
  have hkT : k ∈ (crossFieldPass (deduplicateWithinArray toR) []).2 ↔
      ¬ toR.filter (fun r => emailKey r == k) = [] := by
    rw [crossFieldPass_snd_mem]
    simp only [List.not_mem_nil, false_or]
    rw [key_mem_deduplicateWithinArray_iff, key_mem_iff_filter_ne_nil]
  have hkC : k ∈ (crossFieldPass (deduplicateWithinArray ccR)
      (crossFieldPass (deduplicateWithinArray toR) []).2).2 ↔
      (¬ toR.filter (fun r => emailKey r == k) = [] ∨
        ¬ ccR.filter (fun r => emailKey r == k) = []) := by
    rw [crossFieldPass_snd_mem, hkT, key_mem_deduplicateWithinArray_iff,
      key_mem_iff_filter_ne_nil]
  simp only [deduplicateAllRecipients, List.filter_append]
  rw [crossFieldPass_fst_filter_key, crossFieldPass_fst_filter_key,
    crossFieldPass_fst_filter_key, deduplicateWithinArray_filter_key,
    deduplicateWithinArray_filter_key, deduplicateWithinArray_filter_key]
  simp only [List.take_take, Nat.min_self]
  rw [if_neg (List.not_mem_nil k)]
  by_cases hT : toR.filter (fun r => emailKey r == k) = []
  · rw [if_neg (fun hmem => (hkT.mp hmem) hT)]
    by_cases hC : ccR.filter (fun r => emailKey r == k) = []
    · have : ¬ k ∈ (crossFieldPass (deduplicateWithinArray ccR)
          (crossFieldPass (deduplicateWithinArray toR) []).2).2 := by
        rw [hkC]
        rintro (h | h)
        · exact h hT
        · exact h hC
      rw [if_neg this, hT, hC]
      simp [hT, hC]
    · rw [if_pos (hkC.mpr (Or.inr hC)), hT]
      rcases hcc : ccR.filter (fun r => emailKey r == k) with _ | ⟨x, xs⟩
      · exact absurd hcc hC
      · simp [hcc]
  · rw [if_pos (hkT.mpr hT), if_pos (hkC.mpr (Or.inl hT))]
    rcases ht : toR.filter (fun r => emailKey r == k) with _ | ⟨x, xs⟩
    · exact absurd ht hT
    · simp [ht]

/-- C10: deduplication normalizes a missing or empty email address to the
empty string, so all entries without an extractable email share one key and at
most one of them survives across the three output lists — the first one
encountered in To-CC-BCC priority order. -/
theorem missing_email_single_survivor (toR ccR bccR : List Recipient) :
    (∀ d : String, emailKey ⟨d, none⟩ = "" ∧ emailKey ⟨d, some ""⟩ = "") ∧
    ((deduplicateAllRecipients toR ccR bccR).toList ++
      (deduplicateAllRecipients toR ccR bccR).ccList ++
      (deduplicateAllRecipients toR ccR bccR).bccList).filter
        (fun r => emailKey r == "") =
      ((toR ++ ccR ++ bccR).filter (fun r => emailKey r == "")).take 1 :=
  ⟨fun d => ⟨rfl, rfl⟩, dedupe_filter_key toR ccR bccR ""⟩
